import Mathlib

/-!
Shallow embedding of the heuristic receipt reconstruction engine of the
`myprice` repository, together with proofs checking the natural-language
specification against it.

Modelling conventions:
* Go `float64` values (prices, confidences, positions) are modelled as exact
  rationals `ℚ`; `strconv.ParseFloat` is modelled on its decimal grammar
  (optional sign, digits with optional fraction, optional decimal exponent);
  the special float forms (`inf`, `nan`, hex floats, digit-group underscores)
  are outside the model.
* Go strings are Lean `String`s, processed as `List Char`; `len` on a Go
  string (a byte count) is modelled by summing UTF-8 sizes of the chars.
* `strings.TrimSpace` is modelled on the ASCII whitespace characters.
* The two regular expressions of the server package
  (`\$?([\d,]+\.?\d*)` and `\d{1,2}/\d{1,2}/\d{2,4}|\d{4}-\d{2}-\d{2}`)
  are compiled by hand into scanning functions with Go's leftmost-match
  semantics.
* `sort.Slice` with the comparator `top < top || (top == top && left < left)`
  is modelled by insertion sort over the reflexive lexicographic order;
  every property stated here (permutation, sortedness, determinism) is
  independent of which deterministic comparison sort is used.
-/

namespace MyPrice

/-! ## Characters and Go string primitives -/

/-- Numeric value of a decimal digit character. -/
def digitVal (c : Char) : ℕ := c.toNat - 48

/-- Character for a decimal digit. -/
def digitChar (d : ℕ) : Char := Char.ofNat (48 + d)

/-- ASCII whitespace, as recognised by `strings.TrimSpace` (model of
`unicode.IsSpace` restricted to ASCII). -/
def goIsSpace (c : Char) : Bool :=
  c == ' ' || c == '\t' || c == '\n' || c == '\x0d' || c == '\x0b' || c == '\x0c'

/-- Model of `strings.TrimSpace` on a character list. -/
def goTrimSpaceL (l : List Char) : List Char :=
  ((l.dropWhile goIsSpace).reverse.dropWhile goIsSpace).reverse

/-- Model of `strings.TrimPrefix(s, "$")`: drop one leading dollar sign. -/
def goTrimLeadingDollar (l : List Char) : List Char :=
  match l with
  | [] => []
  | c :: r => if c = '$' then r else c :: r

/-- Model of `strings.ReplaceAll(s, ",", "")`. -/
def removeCommas (l : List Char) : List Char := l.filter (fun c => !(c == ','))

/-- Model of `strings.Contains s pat` (substring test). -/
def containsSubstr : List Char → List Char → Bool
  | [], pat => pat.isEmpty
  | c :: rest, pat => List.isPrefixOf pat (c :: rest) || containsSubstr rest pat

/-- Model of `strings.ToLower` (ASCII case folding). -/
def goToLower (l : List Char) : List Char := l.map Char.toLower

/-- Go byte length of a character list (`len` of the UTF-8 string). -/
def goLenL (l : List Char) : ℕ := (l.map Char.utf8Size).sum

/-- Go byte length of a string (`len(s)`). -/
def goLen (s : String) : ℕ := goLenL s.toList

/-! ## Decimal number parsing (model of `strconv.ParseFloat` / `strconv.Atoi`) -/

/-- Value of a digit string, most significant digit first. -/
def natOfChars (l : List Char) : ℕ := Nat.ofDigits 10 ((l.map digitVal).reverse)

/-- Strip one optional sign character; returns (isNegative, rest). -/
def splitSign (l : List Char) : Bool × List Char :=
  match l with
  | [] => (false, [])
  | c :: r => if c = '-' then (true, r) else if c = '+' then (false, r) else (false, c :: r)

/-- Negate when the sign flag is set. -/
def applySign (neg : Bool) (q : ℚ) : ℚ := if neg then -q else q

/-- Exponent tail after `e`/`E`: optional sign, then digits to end of input. -/
def parseExpTail (r : List Char) : Option ℤ :=
  let s := splitSign r
  let ds := s.2.takeWhile Char.isDigit
  let rest := s.2.dropWhile Char.isDigit
  if ds ≠ [] ∧ rest = [] then
    some (if s.1 then -(natOfChars ds : ℤ) else (natOfChars ds : ℤ))
  else none

/-- Optional exponent part of a decimal float. -/
def parseExp (l : List Char) : Option ℤ :=
  match l with
  | [] => some 0
  | c :: r => if c = 'e' ∨ c = 'E' then parseExpTail r else none

/-- Mantissa-and-exponent part of the float grammar, after the sign. -/
def goParseMantissa (neg : Bool) (l : List Char) : Option ℚ :=
  let ip := l.takeWhile Char.isDigit
  let r1 := l.dropWhile Char.isDigit
  match r1 with
  | '.' :: r2 =>
    let fp := r2.takeWhile Char.isDigit
    let r3 := r2.dropWhile Char.isDigit
    if ip = [] ∧ fp = [] then none
    else
      match parseExp r3 with
      | none => none
      | some e =>
        some (applySign neg (((natOfChars ip : ℚ) + (natOfChars fp : ℚ) / 10 ^ fp.length) * 10 ^ e))
  | _ =>
    if ip = [] then none
    else
      match parseExp r1 with
      | none => none
      | some e => some (applySign neg ((natOfChars ip : ℚ) * 10 ^ e))

/-- Model of `strconv.ParseFloat` on its decimal grammar, as an exact rational. -/
def goParseFloatChars (l : List Char) : Option ℚ :=
  let s := splitSign l
  goParseMantissa s.1 s.2

/-- Model of `strconv.Atoi`: optional sign, then decimal digits to the end. -/
def goAtoi (l : List Char) : Option ℤ :=
  let s := splitSign l
  if s.2 ≠ [] ∧ s.2.all Char.isDigit then
    some (if s.1 then -(natOfChars s.2 : ℤ) else (natOfChars s.2 : ℤ))
  else none

/-! ## Value normalizers (source: `internal/receipt/normalize.go`) -/

/-- `NormalizePrice` from `internal/receipt/normalize.go`: trim whitespace,
strip a leading `$`, remove commas, parse as a float; `0` on parse failure. -/
def NormalizePrice (s : String) : ℚ :=
  let cleaned := removeCommas (goTrimLeadingDollar (goTrimSpaceL s.toList))
  match goParseFloatChars cleaned with
  | some v => v
  | none => 0

/-- `ParseQuantity` from `internal/receipt/normalize.go`: trim whitespace,
parse as an integer; parse failure or a value below 1 yields 1. -/
def ParseQuantity (s : String) : ℤ :=
  let cleaned := goTrimSpaceL s.toList
  match goAtoi cleaned with
  | none => 1
  | some q => if q < 1 then 1 else q

/-- Definition following the specification's words for `normalizePrice`
(§4.1): trims whitespace, strips a leading currency symbol, strips grouping
separators, parses the remainder as a decimal number, and yields the zero
amount on unparsable input. Stated separately from `NormalizePrice` so the
two can be compared. -/
def specNormalizePrice (s : String) : ℚ :=
  (goParseFloatChars (removeCommas (goTrimLeadingDollar (goTrimSpaceL s.toList)))).getD 0

/-! ## Server regex helpers (source: `server/parse.go`, shown in
`tools/load_image.go` part): `priceRegex` and `dateRegex`. -/

/-- Character class `[\d,]` of `priceRegex`. -/
def isPriceClass (c : Char) : Bool := c.isDigit || c == ','

/-- Match of `([\d,]+\.?\d*)` at the head of the input; returns the capture
and the rest of the input after the match. -/
def priceCore (l : List Char) : Option (List Char × List Char) :=
  let run := l.takeWhile isPriceClass
  if run.isEmpty then none
  else
    let r1 := l.dropWhile isPriceClass
    match r1 with
    | '.' :: r2 =>
      some (run ++ '.' :: r2.takeWhile Char.isDigit, r2.dropWhile Char.isDigit)
    | _ => some (run, r1)

/-- Match of `\$?([\d,]+\.?\d*)` at the head of the input; returns the
capture group and the rest after the full match. A `$` not followed by a
digit or comma cannot start a match. -/
def priceMatchAt (l : List Char) : Option (List Char × List Char) :=
  match l with
  | [] => none
  | c :: r => if c = '$' then priceCore r else priceCore (c :: r)

/-- Leftmost match of `priceRegex`: capture group of the first match. -/
def priceFindCapture : List Char → Option (List Char)
  | [] => none
  | c :: rest =>
    match priceMatchAt (c :: rest) with
    | some p => some p.1
    | none => priceFindCapture rest

/-- Fuelled removal of all non-overlapping leftmost matches of `priceRegex`
(model of `ReplaceAllString s ""`); the fuel is the input length, which every
match (of length at least one) never exhausts. -/
def priceRemoveAllF : ℕ → List Char → List Char
  | 0, l => l
  | _ + 1, [] => []
  | fuel + 1, c :: rest =>
    match priceMatchAt (c :: rest) with
    | some p => priceRemoveAllF fuel p.2
    | none => c :: priceRemoveAllF fuel rest

/-- `containsPrice` from the server package: a literal `$` anywhere, or a
match of `priceRegex`. -/
def containsPrice (s : String) : Bool :=
  containsSubstr s.toList ['$'] || (priceFindCapture s.toList).isSome

/-- `extractPrice` from the server package: capture of the first `priceRegex`
match, commas removed, parsed as a float; `0` when absent or unparsable. -/
def extractPrice (s : String) : ℚ :=
  match priceFindCapture s.toList with
  | none => 0
  | some cap =>
    match goParseFloatChars (removeCommas cap) with
    | none => 0
    | some v => v

/-- `extractItemName` from the server package: delete all `priceRegex`
matches, delete `$` signs, trim; a residual shorter than 2 bytes yields "". -/
def extractItemName (s : String) : String :=
  let name0 := priceRemoveAllF s.toList.length s.toList
  let name1 := name0.filter (fun c => !(c == '$'))
  let name2 := goTrimSpaceL name1
  if goLenL name2 < 2 then "" else ⟨name2⟩

/-- Consume exactly `n` decimal digits. -/
def chompDigits : ℕ → List Char → Option (List Char)
  | 0, l => some l
  | _ + 1, [] => none
  | n + 1, c :: r => if c.isDigit then chompDigits n r else none

/-- Match of `\d{1,2}/\d{1,2}/\d{2,4}` at the head of the input. -/
def dateSlashAt (l : List Char) : Bool :=
  [1, 2].any fun a =>
    match chompDigits a l with
    | some ('/' :: r1) =>
      [1, 2].any fun b =>
        match chompDigits b r1 with
        | some ('/' :: r2) => (chompDigits 2 r2).isSome
        | _ => false
    | _ => false

/-- Match of `\d{4}-\d{2}-\d{2}` at the head of the input. -/
def dateIsoAt (l : List Char) : Bool :=
  match chompDigits 4 l with
  | some ('-' :: r1) =>
    match chompDigits 2 r1 with
    | some ('-' :: r2) => (chompDigits 2 r2).isSome
    | _ => false
  | _ => false

/-- Scan for a match of `dateRegex` anywhere in the input. -/
def dateScan : List Char → Bool
  | [] => false
  | c :: rest => dateSlashAt (c :: rest) || dateIsoAt (c :: rest) || dateScan rest

/-- `containsDate` from the server package. -/
def containsDate (s : String) : Bool := dateScan s.toList

/-! ## Data model (source: `tools/load_textract.go`, `server/api.go`) -/

/-- One OCR text fragment (`TextractLine`). -/
structure TextractLine where
  text : String
  confidence : ℚ
  top : ℚ
  left : ℚ
deriving DecidableEq

/-- One receipt line item. -/
structure Item where
  name : String
  qty : ℤ
  price : ℚ
deriving DecidableEq

/-- The assembled receipt record (the keys of the `map[string]any` built by
`parseTextractToReceipt`). -/
structure Receipt where
  vendor : String
  date : String
  items : List Item
  subtotal : ℚ
  tax : ℚ
  total : ℚ
  confidence_notes : String
  anomalies : List String
deriving DecidableEq

/-- Accumulator state of the classification pass. -/
structure ParseState where
  vendor : String
  date : String
  items : List Item
  subtotal : ℚ
  tax : ℚ
  total : ℚ
deriving DecidableEq

/-- Initial (all-empty) classifier state. -/
def initState : ParseState := ⟨"", "", [], 0, 0, 0⟩

/-- Keyword `"subtotal"`. -/
def subtotalW : List Char := "subtotal".toList

/-- Keyword `"tax"`. -/
def taxW : List Char := "tax".toList

/-- Keyword `"total"`. -/
def totalW : List Char := "total".toList

/-- Vendor rule of `parseTextractToReceipt`:
`i < 3 && line.Confidence > 90 && vendor == "" && len(text) > 3`. -/
def stepVendor (i : ℕ) (l : TextractLine) (st : ParseState) : ParseState :=
  if i < 3 ∧ 90 < l.confidence ∧ st.vendor = "" ∧ 3 < goLen l.text then
    { st with vendor := l.text }
  else st

/-- Date rule of `parseTextractToReceipt`:
`if containsDate(text) && date == "" { date = text }`. -/
def stepDate (l : TextractLine) (st : ParseState) : ParseState :=
  if containsDate l.text ∧ st.date = "" then { st with date := l.text } else st

/-- Amount rule of `parseTextractToReceipt`: keyword classification of a
price-bearing fragment, else-if chained. -/
def stepAmount (l : TextractLine) (st : ParseState) : ParseState :=
  if containsPrice l.text then
    let lowerText := goToLower l.text.toList
    let price := extractPrice l.text
    if containsSubstr lowerText subtotalW then { st with subtotal := price }
    else if containsSubstr lowerText taxW then { st with tax := price }
    else if containsSubstr lowerText totalW ∧ ¬ containsSubstr lowerText subtotalW then
      { st with total := price }
    else if 0 < price then
      let name := extractItemName l.text
      if name ≠ "" ∧ 1 < goLen name then { st with items := st.items ++ [⟨name, 1, price⟩] }
      else st
    else st
  else st

/-- One iteration of the classification loop body, at loop index `i`. -/
def stepLine (i : ℕ) (st : ParseState) (l : TextractLine) : ParseState :=
  stepAmount l (stepDate l (stepVendor i l st))

/-- The classification loop of `parseTextractToReceipt`. -/
def runLines : ℕ → ParseState → List TextractLine → ParseState
  | _, st, [] => st
  | i, st, l :: ls => runLines (i + 1) (stepLine i st l) ls

/-- `parseTextractToReceipt` from the server package: single pass over the
lines, then assembly of the receipt record with its fixed note and empty
anomaly list. -/
def parseTextractToReceipt (lines : List TextractLine) : Receipt :=
  let st := runLines 0 initState lines
  { vendor := st.vendor, date := st.date, items := st.items,
    subtotal := st.subtotal, tax := st.tax, total := st.total,
    confidence_notes := "Parsed from Textract OCR output",
    anomalies := [] }

/-! ## Fragment ordering (source: `tools/load_textract.go`) -/

/-- Reflexive closure of the `sort.Slice` comparator: ascending `top`, ties
broken by ascending `left`. -/
def lineLe (a b : TextractLine) : Prop :=
  a.top < b.top ∨ (a.top = b.top ∧ a.left ≤ b.left)

instance : DecidableRel lineLe := fun a b => by unfold lineLe; infer_instance

instance : IsTotal TextractLine lineLe :=
  ⟨fun a b => by
    unfold lineLe
    rcases lt_trichotomy a.top b.top with h | h | h
    · exact Or.inl (Or.inl h)
    · rcases le_total a.left b.left with hl | hl
      · exact Or.inl (Or.inr ⟨h, hl⟩)
      · exact Or.inr (Or.inr ⟨h.symm, hl⟩)
    · exact Or.inr (Or.inl h)⟩

instance : IsTrans TextractLine lineLe :=
  ⟨fun a b c hab hbc => by
    unfold lineLe at *
    rcases hab with h1 | h1 <;> rcases hbc with h2 | h2
    · exact Or.inl (h1.trans h2)
    · exact Or.inl (h2.1 ▸ h1)
    · exact Or.inl (h1.1 ▸ h2)
    · exact Or.inr ⟨h1.1.trans h2.1, h1.2.trans h2.2⟩⟩

/-- The ordering step of `HandleLoadTextract`: sort by `(top, left)`. -/
def sortLines (lines : List TextractLine) : List TextractLine :=
  List.insertionSort lineLe lines

/-- The full deterministic pipeline: ordering, then classification and
assembly. -/
def pipeline (fragments : List TextractLine) : Receipt :=
  parseTextractToReceipt (sortLines fragments)

/-! ## Rendering a rational amount as its canonical decimal string
(model of formatting a parsed `float64` back to a string, for the
idempotence property). -/

/-- Decimal digits of a natural number, most significant first. -/
def renderNatChars (m : ℕ) : List Char :=
  if m = 0 then ['0'] else ((Nat.digits 10 m).reverse.map digitChar)

/-- Smallest scaling exponent `k ≤ den` with `q * 10 ^ k` integral. -/
def kOf (q : ℚ) : ℕ :=
  ((List.range (q.den + 1)).find? (fun k => (q * 10 ^ k).den == 1)).getD 0

/-- Decimal rendering of a non-negative decimal-fraction rational. -/
def renderPosChars (q : ℚ) : List Char :=
  let k := kOf q
  let m := (q * 10 ^ k).num.toNat
  if k = 0 then renderNatChars m
  else
    let raw := (Nat.digits 10 (m % 10 ^ k)).reverse.map digitChar
    renderNatChars (m / 10 ^ k) ++ '.' :: (List.replicate (k - raw.length) '0' ++ raw)

/-- Decimal string rendering of a decimal-fraction rational amount. -/
def renderMoney (q : ℚ) : String :=
  if q < 0 then ⟨'-' :: renderPosChars (-q)⟩ else ⟨renderPosChars q⟩

/-! ## Predicates used to state the classifier theorems -/

/-- The vendor rule's per-fragment test (position and found-flag aside). -/
def vendorPred (l : TextractLine) : Bool :=
  decide (90 < l.confidence) && decide (3 < goLen l.text)

/-- A fragment the classifier assigns to `tax`: price-bearing, no
`"subtotal"`, contains `"tax"`. -/
def qualTax (l : TextractLine) : Bool :=
  containsPrice l.text && !(containsSubstr (goToLower l.text.toList) subtotalW) &&
    containsSubstr (goToLower l.text.toList) taxW

/-- A fragment the classifier assigns to `total`: price-bearing, no
`"subtotal"`, no `"tax"`, contains `"total"`. -/
def qualTotal (l : TextractLine) : Bool :=
  containsPrice l.text && !(containsSubstr (goToLower l.text.toList) subtotalW) &&
    !(containsSubstr (goToLower l.text.toList) taxW) &&
    containsSubstr (goToLower l.text.toList) totalW

/-- A fragment the classifier assigns to `subtotal`: price-bearing and
contains `"subtotal"`. -/
def qualSub (l : TextractLine) : Bool :=
  containsPrice l.text && containsSubstr (goToLower l.text.toList) subtotalW

/-- A fragment the classifier emits as a line item: price-bearing, none of
the three keywords, positive extracted amount, and a residual name of at
least two bytes. -/
def qualItem (l : TextractLine) : Bool :=
  containsPrice l.text && !(containsSubstr (goToLower l.text.toList) subtotalW) &&
    !(containsSubstr (goToLower l.text.toList) taxW) &&
    !(containsSubstr (goToLower l.text.toList) totalW) &&
    decide (0 < extractPrice l.text) &&
    (decide (extractItemName l.text ≠ "") && decide (1 < goLen (extractItemName l.text)))

/-- Number of the four amount outputs (subtotal, tax, total, items) on which
two classifier states differ. -/
def amountChanges (st stNew : ParseState) : ℕ :=
  (if stNew.subtotal = st.subtotal then 0 else 1) +
  (if stNew.tax = st.tax then 0 else 1) +
  (if stNew.total = st.total then 0 else 1) +
  (if stNew.items = st.items then 0 else 1)

/-! ## Concrete inputs used by the end-to-end and counterexample theorems -/

/-- The five fragments of the end-to-end scenario. -/
def demoFragments : List TextractLine :=
  [⟨"STORE NAME", 97, 5/100, 1/10⟩,
   ⟨"Milk $4.99", 95, 30/100, 1/10⟩,
   ⟨"Subtotal $4.99", 96, 50/100, 1/10⟩,
   ⟨"Tax $0.40", 96, 55/100, 1/10⟩,
   ⟨"Total $5.39", 97, 60/100, 1/10⟩]

/-- A single fragment satisfying the vendor rule, the date rule and the
line-item rule at once. -/
def multiFieldLine : TextractLine := ⟨"Shop 1/1/24 $5.00", 95, 1/10, 1/10⟩

/-- A fragment whose text strictly contains a date pattern. -/
def dateNoiseLine : TextractLine := ⟨"Date: 03/15/2024", 80, 1/10, 1/10⟩

/-- Two price-bearing fragments: the second contains both `"tax"` and
`"total"` (and no `"subtotal"`). -/
def taxTotalLines : List TextractLine :=
  [⟨"Total $5.00", 95, 1/10, 1/10⟩, ⟨"tax total $9.00", 95, 2/10, 1/10⟩]

/-! ## Projection lemmas for the classifier steps -/

theorem stepVendor_date (i : ℕ) (l : TextractLine) (st : ParseState) :
    (stepVendor i l st).date = st.date := by
  unfold stepVendor; split <;> rfl

theorem stepVendor_subtotal (i : ℕ) (l : TextractLine) (st : ParseState) :
    (stepVendor i l st).subtotal = st.subtotal := by
  unfold stepVendor; split <;> rfl

theorem stepVendor_tax (i : ℕ) (l : TextractLine) (st : ParseState) :
    (stepVendor i l st).tax = st.tax := by
  unfold stepVendor; split <;> rfl

theorem stepVendor_total (i : ℕ) (l : TextractLine) (st : ParseState) :
    (stepVendor i l st).total = st.total := by
  unfold stepVendor; split <;> rfl

theorem stepVendor_items (i : ℕ) (l : TextractLine) (st : ParseState) :
    (stepVendor i l st).items = st.items := by
  unfold stepVendor; split <;> rfl

theorem stepDate_vendor (l : TextractLine) (st : ParseState) :
    (stepDate l st).vendor = st.vendor := by
  unfold stepDate; split <;> rfl

theorem stepDate_subtotal (l : TextractLine) (st : ParseState) :
    (stepDate l st).subtotal = st.subtotal := by
  unfold stepDate; split <;> rfl

theorem stepDate_tax (l : TextractLine) (st : ParseState) :
    (stepDate l st).tax = st.tax := by
  unfold stepDate; split <;> rfl

theorem stepDate_total (l : TextractLine) (st : ParseState) :
    (stepDate l st).total = st.total := by
  unfold stepDate; split <;> rfl

theorem stepDate_items (l : TextractLine) (st : ParseState) :
    (stepDate l st).items = st.items := by
  unfold stepDate; split <;> rfl

theorem stepAmount_vendor (l : TextractLine) (st : ParseState) :
    (stepAmount l st).vendor = st.vendor := by
  simp only [stepAmount]; split_ifs <;> rfl

theorem stepAmount_date (l : TextractLine) (st : ParseState) :
    (stepAmount l st).date = st.date := by
  simp only [stepAmount]; split_ifs <;> rfl

theorem goLen_big_ne_empty {t : String} (h : 3 < goLen t) : t ≠ "" := by
  rintro rfl
  exact absurd h (by decide)

theorem containsDate_ne_empty {t : String} (h : containsDate t = true) : t ≠ "" := by
  rintro rfl
  exact absurd h (by decide)

/-! ## Claim theorems (first group) -/

unseal Rat.mul Rat.inv Rat.add Rat.sub in
/-- C1: on the five-fragment scenario input, the full pipeline (ordering,
classification, assembly) produces the receipt with vendor "STORE NAME",
the single item Milk at price 4.99 and quantity 1, subtotal 4.99, tax 0.40
and total 5.39. -/
theorem c1_end_to_end :
    pipeline demoFragments =
      { vendor := "STORE NAME", date := "",
        items := [{ name := "Milk", qty := 1, price := 499/100 }],
        subtotal := 499/100, tax := 40/100, total := 539/100,
        confidence_notes := "Parsed from Textract OCR output", anomalies := [] } := by
  decide

unseal Rat.mul Rat.inv Rat.add Rat.sub in
/-- C2 counterexample: a single fragment is simultaneously selected as the
vendor, as the date, and as a line item, so the classifier rules are not
mutually exclusive per fragment as the claim states. -/
theorem c2_counterexample :
    (parseTextractToReceipt [multiFieldLine]).vendor = "Shop 1/1/24 $5.00" ∧
    (parseTextractToReceipt [multiFieldLine]).date = "Shop 1/1/24 $5.00" ∧
    (parseTextractToReceipt [multiFieldLine]).items = [⟨"Shop //", 1, 1⟩] := by
  decide

unseal Rat.mul Rat.inv Rat.add Rat.sub in
/-- C4 counterexample: `NormalizePrice` returns a strictly negative amount on
the token "-3.5", so it does not return a non-negative amount for every
input token. -/
theorem c4_counterexample :
    NormalizePrice "-3.5" = -(7/2) ∧ ¬ (0 ≤ NormalizePrice "-3.5") := by
  decide

unseal Rat.mul Rat.inv Rat.add Rat.sub in
/-- C4 (amended): `NormalizePrice` trims whitespace, strips a leading
currency symbol and grouping commas, and parses the remainder as a base-10
decimal number; any unparsable token yields exactly 0, never an error (but
the result is negative on a token with a leading minus sign). Stated as
agreement with the spec-worded cleaning pipeline plus the spec's literal
price table. -/
theorem c4_amended :
    (∀ s : String, NormalizePrice s = specNormalizePrice s) ∧
    NormalizePrice "$12.99" = 1299/100 ∧ NormalizePrice "1,234.56" = 123456/100 ∧
    NormalizePrice "$0" = 0 ∧ NormalizePrice "N/A" = 0 ∧ NormalizePrice "  $3.50  " = 35/10 := by
  refine ⟨fun s => ?_, by decide, by decide, by decide, by decide, by decide⟩
  unfold NormalizePrice specNormalizePrice
  cases h : goParseFloatChars (removeCommas (goTrimLeadingDollar (goTrimSpaceL s.data))) <;>
    simp [String.toList, h]

/-- C5: the classification-and-assembly pass is a total function: it always
returns a receipt whose `confidence_notes` is the fixed heuristic-path note
and whose `anomalies` list is empty, and on an empty fragment list every
field holds its empty or zero default. -/
theorem c5_always_complete_receipt (lines : List TextractLine) :
    (parseTextractToReceipt lines).confidence_notes = "Parsed from Textract OCR output" ∧
    (parseTextractToReceipt lines).anomalies = [] ∧
    parseTextractToReceipt [] =
      { vendor := "", date := "", items := [], subtotal := 0, tax := 0, total := 0,
        confidence_notes := "Parsed from Textract OCR output", anomalies := [] } :=
  ⟨rfl, rfl, rfl⟩

/-- C6: the ordering step returns a permutation of its input that is sorted
by the key (top, left) in ascending lexicographic order, and (being a pure
function) running it twice on the same input yields the identical sequence. -/
theorem c6_ordering_sorted_perm (l : List TextractLine) :
    (sortLines l).Perm l ∧ List.Sorted lineLe (sortLines l) ∧ sortLines l = sortLines l :=
  ⟨List.perm_insertionSort lineLe l, List.sorted_insertionSort lineLe l, rfl⟩

/-- C9: `ParseQuantity` never returns a value below 1 (any parse failure or
parsed value below 1 falls back to the default 1), and on the spec's literal
cases: "", "abc", "0" and "-3" yield 1 while "4" yields 4. -/
theorem c9_quantity_default :
    (∀ s : String, 1 ≤ ParseQuantity s) ∧
    ParseQuantity "" = 1 ∧ ParseQuantity "abc" = 1 ∧ ParseQuantity "0" = 1 ∧
    ParseQuantity "-3" = 1 ∧ ParseQuantity "4" = 4 := by
  refine ⟨fun s => ?_, by decide, by decide, by decide, by decide, by decide⟩
  unfold ParseQuantity
  rcases h : goAtoi (goTrimSpaceL s.data) with _ | q
  · simp [String.toList, h]
  · simp only [String.toList, h]
    split <;> omega

/-! ## Characterization of the vendor field -/

theorem stepLine_vendor (i : ℕ) (st : ParseState) (l : TextractLine) :
    (stepLine i st l).vendor = (stepVendor i l st).vendor := by
  unfold stepLine
  rw [stepAmount_vendor, stepDate_vendor]

theorem runLines_vendor (ls : List TextractLine) :
    ∀ (i : ℕ) (st : ParseState),
      (runLines i st ls).vendor =
        if st.vendor = "" then
          ((((ls.take (3 - i)).find? vendorPred).map TextractLine.text).getD "")
        else st.vendor := by
  induction ls with
  | nil =>
    intro i st
    by_cases hv : st.vendor = "" <;> simp [runLines, hv]
  | cons l ls ih =>
    intro i st
    have hstep : runLines i st (l :: ls) = runLines (i + 1) (stepLine i st l) ls := rfl
    rw [hstep, ih, stepLine_vendor]
    by_cases hv : st.vendor = ""
    · by_cases hi : i < 3
      · have htake : (l :: ls).take (3 - i) = l :: ls.take (3 - (i + 1)) := by
          have h3 : 3 - i = (3 - (i + 1)) + 1 := by omega
          rw [h3, List.take_succ_cons]
        by_cases hp : vendorPred l = true
        · have hp2 : 90 < l.confidence ∧ 3 < goLen l.text := by
            simpa [vendorPred] using hp
          have hsv : (stepVendor i l st).vendor = l.text := by
            unfold stepVendor
            rw [if_pos ⟨hi, hp2.1, hv, hp2.2⟩]
          rw [hsv, if_neg (goLen_big_ne_empty hp2.2), if_pos hv, htake,
            List.find?_cons_of_pos _ hp]
          simp
        · have hsv : (stepVendor i l st).vendor = st.vendor := by
            unfold stepVendor
            rw [if_neg]
            rintro ⟨h1, h2, h3, h4⟩
            exact hp (by simp [vendorPred, h2, h4])
          rw [hsv, if_pos hv, if_pos hv, htake, List.find?_cons_of_neg _ hp]
      · have h0 : 3 - i = 0 := by omega
        have h02 : 3 - (i + 1) = 0 := by omega
        have hsv : (stepVendor i l st).vendor = st.vendor := by
          unfold stepVendor
          rw [if_neg]
          rintro ⟨h1, _⟩
          exact hi h1
        rw [hsv, if_pos hv, if_pos hv, h0, h02]
        simp
    · have hsv : (stepVendor i l st).vendor = st.vendor := by
        unfold stepVendor
        rw [if_neg]
        rintro ⟨_, _, h3, _⟩
        exact hv h3
      rw [hsv, if_neg hv, if_neg hv]

/-- C8: the vendor field is exactly the text of the first fragment among the
first three of the sequence whose confidence exceeds 90 and whose text is
longer than 3 bytes, and the empty string when no such fragment exists; in
particular a fragment at position 4 or later is never selected. -/
theorem c8_vendor_gate (lines : List TextractLine) :
    (parseTextractToReceipt lines).vendor =
      (((lines.take 3).find? vendorPred).map TextractLine.text).getD "" := by
  show (runLines 0 initState lines).vendor = _
  rw [runLines_vendor]
  rfl

/-! ## Characterization of the date field -/

theorem stepLine_date (i : ℕ) (st : ParseState) (l : TextractLine) :
    (stepLine i st l).date =
      if containsDate l.text = true ∧ st.date = "" then l.text else st.date := by
  unfold stepLine
  rw [stepAmount_date]
  unfold stepDate
  simp only [stepVendor_date]
  split
  · rfl
  · exact stepVendor_date i l st

theorem runLines_date (ls : List TextractLine) :
    ∀ (i : ℕ) (st : ParseState),
      (runLines i st ls).date =
        if st.date = "" then
          (((ls.find? fun x => containsDate x.text).map TextractLine.text).getD "")
        else st.date := by
  induction ls with
  | nil =>
    intro i st
    by_cases hd : st.date = "" <;> simp [runLines, hd]
  | cons l ls ih =>
    intro i st
    have hstep : runLines i st (l :: ls) = runLines (i + 1) (stepLine i st l) ls := rfl
    rw [hstep, ih, stepLine_date]
    by_cases hd : st.date = ""
    · by_cases hc : containsDate l.text = true
      · have hC : containsDate l.text = true ∧ st.date = "" := ⟨hc, hd⟩
        have hfind : List.find? (fun x => containsDate x.text) (l :: ls) = some l := by
          simp [hc]
        simp only [if_pos hC, if_pos hd]
        rw [hfind]
        simp [containsDate_ne_empty hc]
      · have hC : ¬ (containsDate l.text = true ∧ st.date = "") := by
          rintro ⟨h1, _⟩
          exact hc h1
        have hfind : List.find? (fun x => containsDate x.text) (l :: ls) =
            List.find? (fun x => containsDate x.text) ls := by
          simp [hc]
        simp only [if_neg hC, if_pos hd]
        rw [hfind]
    · have hC : ¬ (containsDate l.text = true ∧ st.date = "") := by
        rintro ⟨_, h2⟩
        exact hd h2
      simp only [if_neg hC, if_neg hd]

unseal Rat.mul Rat.inv Rat.add Rat.sub in
/-- C3 counterexample: on a fragment whose text strictly contains the date
pattern, the classifier stores the whole fragment text, not the matched
substring "03/15/2024". -/
theorem c3_counterexample :
    (parseTextractToReceipt [dateNoiseLine]).date = "Date: 03/15/2024" ∧
    (parseTextractToReceipt [dateNoiseLine]).date ≠ "03/15/2024" := by
  decide

/-- C3 (amended): the date field is the WHOLE text of the first fragment
whose text matches a date pattern (and the empty string when there is none);
the matched substring is not extracted. -/
theorem c3_date_whole_text (lines : List TextractLine) :
    (parseTextractToReceipt lines).date =
      (((lines.find? fun x => containsDate x.text).map TextractLine.text).getD "") := by
  show (runLines 0 initState lines).date = _
  rw [runLines_date]
  rfl

/-! ## Characterization of the amount fields -/

theorem stepAmount_subtotal (l : TextractLine) (st : ParseState) :
    (stepAmount l st).subtotal = if qualSub l then extractPrice l.text else st.subtotal := by
  by_cases hp : containsPrice l.text <;>
  by_cases hsub : containsSubstr (goToLower l.text.data) subtotalW <;>
  by_cases htax : containsSubstr (goToLower l.text.data) taxW <;>
  by_cases htot : containsSubstr (goToLower l.text.data) totalW <;>
  simp [stepAmount, qualSub, hp, hsub, htax, htot] <;>
  split_ifs <;> rfl

theorem stepAmount_tax (l : TextractLine) (st : ParseState) :
    (stepAmount l st).tax = if qualTax l then extractPrice l.text else st.tax := by
  by_cases hp : containsPrice l.text <;>
  by_cases hsub : containsSubstr (goToLower l.text.data) subtotalW <;>
  by_cases htax : containsSubstr (goToLower l.text.data) taxW <;>
  by_cases htot : containsSubstr (goToLower l.text.data) totalW <;>
  simp [stepAmount, qualTax, hp, hsub, htax, htot] <;>
  split_ifs <;> rfl

theorem stepAmount_total (l : TextractLine) (st : ParseState) :
    (stepAmount l st).total = if qualTotal l then extractPrice l.text else st.total := by
  by_cases hp : containsPrice l.text <;>
  by_cases hsub : containsSubstr (goToLower l.text.data) subtotalW <;>
  by_cases htax : containsSubstr (goToLower l.text.data) taxW <;>
  by_cases htot : containsSubstr (goToLower l.text.data) totalW <;>
  simp [stepAmount, qualTotal, hp, hsub, htax, htot] <;>
  split_ifs <;> rfl

theorem stepAmount_items (l : TextractLine) (st : ParseState) :
    (stepAmount l st).items =
      if qualItem l then st.items ++ [⟨extractItemName l.text, 1, extractPrice l.text⟩]
      else st.items := by
  by_cases hp : containsPrice l.text <;>
  by_cases hsub : containsSubstr (goToLower l.text.data) subtotalW <;>
  by_cases htax : containsSubstr (goToLower l.text.data) taxW <;>
  by_cases htot : containsSubstr (goToLower l.text.data) totalW <;>
  by_cases hpr : 0 < extractPrice l.text <;>
  by_cases hne : extractItemName l.text = "" <;>
  by_cases hlen : 1 < goLen (extractItemName l.text) <;>
  simp [stepAmount, qualItem, hp, hsub, htax, htot, hpr, hne, hlen] <;>
  split_ifs <;> rfl

theorem stepLine_subtotal (i : ℕ) (st : ParseState) (l : TextractLine) :
    (stepLine i st l).subtotal = if qualSub l then extractPrice l.text else st.subtotal := by
  unfold stepLine
  rw [stepAmount_subtotal, stepDate_subtotal, stepVendor_subtotal]

theorem stepLine_tax (i : ℕ) (st : ParseState) (l : TextractLine) :
    (stepLine i st l).tax = if qualTax l then extractPrice l.text else st.tax := by
  unfold stepLine
  rw [stepAmount_tax, stepDate_tax, stepVendor_tax]

theorem stepLine_total (i : ℕ) (st : ParseState) (l : TextractLine) :
    (stepLine i st l).total = if qualTotal l then extractPrice l.text else st.total := by
  unfold stepLine
  rw [stepAmount_total, stepDate_total, stepVendor_total]

theorem stepLine_items (i : ℕ) (st : ParseState) (l : TextractLine) :
    (stepLine i st l).items =
      if qualItem l then st.items ++ [⟨extractItemName l.text, 1, extractPrice l.text⟩]
      else st.items := by
  unfold stepLine
  rw [stepAmount_items, stepDate_items, stepVendor_items]

theorem runLines_tax (ls : List TextractLine) :
    ∀ (i : ℕ) (st : ParseState),
      (runLines i st ls).tax =
        ls.foldl (fun acc x => if qualTax x then extractPrice x.text else acc) st.tax := by
  induction ls with
  | nil =>
    intro i st
    rfl
  | cons l ls ih =>
    intro i st
    have hstep : runLines i st (l :: ls) = runLines (i + 1) (stepLine i st l) ls := rfl
    rw [hstep, ih, List.foldl_cons, stepLine_tax]

theorem runLines_total (ls : List TextractLine) :
    ∀ (i : ℕ) (st : ParseState),
      (runLines i st ls).total =
        ls.foldl (fun acc x => if qualTotal x then extractPrice x.text else acc) st.total := by
  induction ls with
  | nil =>
    intro i st
    rfl
  | cons l ls ih =>
    intro i st
    have hstep : runLines i st (l :: ls) = runLines (i + 1) (stepLine i st l) ls := rfl
    rw [hstep, ih, List.foldl_cons, stepLine_total]

theorem getLast?_cons_ne {α : Type} (a : α) (t : List α) (h : t ≠ []) :
    (a :: t).getLast? = t.getLast? := by
  cases t with
  | nil => exact absurd rfl h
  | cons c t2 => exact List.getLast?_cons_cons

theorem foldl_if_getLast {α : Type} (q : α → Bool) (f : α → ℚ) :
    ∀ (ls : List α) (init : ℚ),
      ls.foldl (fun acc x => if q x then f x else acc) init =
        (((ls.filter q).getLast?).map f).getD init := by
  intro ls
  induction ls with
  | nil =>
    intro init
    simp
  | cons a ls ih =>
    intro init
    rw [List.foldl_cons, ih]
    by_cases hq : q a
    · rw [List.filter_cons_of_pos hq, if_pos hq]
      cases hgl : (ls.filter q).getLast? with
      | none =>
        have hnil : ls.filter q = [] := List.getLast?_eq_none_iff.mp hgl
        rw [hnil]
        simp
      | some b =>
        have hne : ls.filter q ≠ [] := by
          intro hcon
          rw [hcon] at hgl
          simp at hgl
        rw [getLast?_cons_ne _ _ hne, hgl]
        simp
    · rw [List.filter_cons_of_neg hq, if_neg hq]

/-- C10 (amended): the tax field is last-match-wins over the price-bearing
fragments containing "tax" without "subtotal", exactly as the claim states;
but the total field is last-match-wins over the price-bearing fragments
containing "total" without "subtotal" AND without "tax" (a fragment
containing both "tax" and "total" goes to the tax branch of the else-if
chain, not to total). -/
theorem c10_last_match_tax_total (lines : List TextractLine) :
    (parseTextractToReceipt lines).tax =
      (((lines.filter qualTax).getLast?).map (fun l => extractPrice l.text)).getD 0 ∧
    (parseTextractToReceipt lines).total =
      (((lines.filter qualTotal).getLast?).map (fun l => extractPrice l.text)).getD 0 := by
  constructor
  · show (runLines 0 initState lines).tax = _
    rw [runLines_tax, foldl_if_getLast]
    rfl
  · show (runLines 0 initState lines).total = _
    rw [runLines_total, foldl_if_getLast]
    rfl

unseal Rat.mul Rat.inv Rat.add Rat.sub in
/-- C10 counterexample: in the two-fragment input, the second fragment
"tax total $9.00" is price-bearing, contains "total" and not "subtotal", and
is the last such fragment with amount 9; yet the receipt's total is 5 (from
the first fragment) because the second is routed to the tax branch, so the
claim's description of total is false. -/
theorem c10_counterexample :
    (parseTextractToReceipt taxTotalLines).total = 5 ∧
    (parseTextractToReceipt taxTotalLines).tax = 9 ∧
    containsPrice "tax total $9.00" = true ∧
    containsSubstr (goToLower "tax total $9.00".toList) totalW = true ∧
    containsSubstr (goToLower "tax total $9.00".toList) subtotalW = false ∧
    extractPrice "tax total $9.00" = 9 ∧
    (parseTextractToReceipt taxTotalLines).total ≠ extractPrice "tax total $9.00" := by
  decide

/-! ## Mutual exclusivity of the amount rules (claim C2) -/

theorem quals_exclusive (l : TextractLine) :
    (qualSub l = true → qualTax l = false ∧ qualTotal l = false ∧ qualItem l = false) ∧
    (qualTax l = true → qualTotal l = false ∧ qualItem l = false) ∧
    (qualTotal l = true → qualItem l = false) := by
  unfold qualSub qualTax qualTotal qualItem
  by_cases h1 : containsPrice l.text <;>
  by_cases h2 : containsSubstr (goToLower l.text.data) subtotalW <;>
  by_cases h3 : containsSubstr (goToLower l.text.data) taxW <;>
  by_cases h4 : containsSubstr (goToLower l.text.data) totalW <;>
  simp [h1, h2, h3, h4]

/-- C2 (amended): the amount sub-rules (subtotal, tax, total, line item) of
the classifier are mutually exclusive per fragment: one loop iteration
changes at most one of the four amount outputs. The vendor and date rules
are evaluated independently of them (and of each other), so the same
fragment can additionally become the vendor and/or the date, as
`c2_counterexample` shows. -/
theorem c2_amount_rules_exclusive (i : ℕ) (l : TextractLine) (st : ParseState) :
    amountChanges st (stepLine i st l) ≤ 1 := by
  unfold amountChanges
  rw [stepLine_subtotal, stepLine_tax, stepLine_total, stepLine_items]
  by_cases hsub : qualSub l = true
  · obtain ⟨h1, h2, h3⟩ := (quals_exclusive l).1 hsub
    simp [hsub, h1, h2, h3] <;> (split_ifs <;> simp)
  · by_cases htax : qualTax l = true
    · obtain ⟨h2, h3⟩ := (quals_exclusive l).2.1 htax
      simp [hsub, htax, h2, h3] <;> (split_ifs <;> simp)
    · by_cases htot : qualTotal l = true
      · have h3 := (quals_exclusive l).2.2 htot
        simp [hsub, htax, htot, h3] <;> (split_ifs <;> simp)
      · by_cases hitem : qualItem l = true
        · simp [hsub, htax, htot, hitem] <;> (split_ifs <;> simp)
        · simp [hsub, htax, htot, hitem]

/-! ## Digits, rendered numerals, and list utilities (towards claim C7) -/

theorem digitChar_spec : ∀ d < 10, (digitChar d).isDigit = true ∧ digitVal (digitChar d) = d := by
  decide

theorem isDigit_props {c : Char} (h : c.isDigit = true) :
    goIsSpace c = false ∧ (c == ',') = false ∧ c ≠ '$' ∧ c ≠ '-' ∧ c ≠ '+' ∧ c ≠ '.' := by
  have h0 : c ≠ ' ' := by rintro rfl; exact absurd h (by decide)
  have h1 : c ≠ '\t' := by rintro rfl; exact absurd h (by decide)
  have h2 : c ≠ '\n' := by rintro rfl; exact absurd h (by decide)
  have h3 : c ≠ '\x0d' := by rintro rfl; exact absurd h (by decide)
  have h4 : c ≠ '\x0b' := by rintro rfl; exact absurd h (by decide)
  have h5 : c ≠ '\x0c' := by rintro rfl; exact absurd h (by decide)
  have h6 : c ≠ ',' := by rintro rfl; exact absurd h (by decide)
  refine ⟨?_, ?_, ?_, ?_, ?_, ?_⟩
  · simp [goIsSpace, h0, h1, h2, h3, h4, h5]
  · simp [h6]
  · rintro rfl; exact absurd h (by decide)
  · rintro rfl; exact absurd h (by decide)
  · rintro rfl; exact absurd h (by decide)
  · rintro rfl; exact absurd h (by decide)

theorem renderNatChars_digits (m : ℕ) : ∀ c ∈ renderNatChars m, c.isDigit = true := by
  intro c hc
  unfold renderNatChars at hc
  split at hc
  · have : c = '0' := by simpa using hc
    subst this
    decide
  · rw [List.mem_map] at hc
    obtain ⟨d, hd, rfl⟩ := hc
    exact (digitChar_spec d (Nat.digits_lt_base (by norm_num) (List.mem_reverse.mp hd))).1

theorem renderNatChars_ne_nil (m : ℕ) : renderNatChars m ≠ [] := by
  unfold renderNatChars
  split
  · simp
  · next h =>
    intro hc
    have hdig : Nat.digits 10 m = [] := by
      have := congrArg List.length hc
      simpa using this
    exact absurd hdig (Nat.digits_ne_nil_iff_ne_zero.mpr h)

theorem takeWhile_all {p : Char → Bool} :
    ∀ l : List Char, (∀ c ∈ l, p c = true) → l.takeWhile p = l
  | [], _ => rfl
  | c :: t, h => by
    have hc := h c (by simp)
    simp only [List.takeWhile_cons, hc, if_true]
    rw [takeWhile_all t (fun x hx => h x (by simp [hx]))]

theorem dropWhile_all {p : Char → Bool} :
    ∀ l : List Char, (∀ c ∈ l, p c = true) → l.dropWhile p = []
  | [], _ => rfl
  | c :: t, h => by
    have hc := h c (by simp)
    simp only [List.dropWhile_cons, hc, if_true]
    exact dropWhile_all t (fun x hx => h x (by simp [hx]))

theorem takeWhile_append_all {p : Char → Bool} (l r : List Char) (h : ∀ c ∈ l, p c = true) :
    (l ++ r).takeWhile p = l ++ r.takeWhile p := by
  induction l with
  | nil => simp
  | cons c t ih =>
    have hc := h c (by simp)
    simp only [List.cons_append, List.takeWhile_cons, hc, if_true]
    rw [ih (fun x hx => h x (by simp [hx]))]

theorem dropWhile_append_all {p : Char → Bool} (l r : List Char) (h : ∀ c ∈ l, p c = true) :
    (l ++ r).dropWhile p = r.dropWhile p := by
  induction l with
  | nil => simp
  | cons c t ih =>
    have hc := h c (by simp)
    simp only [List.cons_append, List.dropWhile_cons, hc, if_true]
    exact ih (fun x hx => h x (by simp [hx]))

theorem dropWhile_none {p : Char → Bool} :
    ∀ l : List Char, (∀ c ∈ l, p c = false) → l.dropWhile p = l
  | [], _ => rfl
  | c :: t, h => by
    simp [List.dropWhile_cons, h c (by simp)]

theorem goTrimSpaceL_nop (l : List Char) (h : ∀ c ∈ l, goIsSpace c = false) :
    goTrimSpaceL l = l := by
  unfold goTrimSpaceL
  rw [dropWhile_none l h,
    dropWhile_none l.reverse (fun c hc => h c (List.mem_reverse.mp hc)),
    List.reverse_reverse]

theorem goTrimLeadingDollar_nop (l : List Char) (h : ∀ c ∈ l, c ≠ '$') :
    goTrimLeadingDollar l = l := by
  cases l with
  | nil => rfl
  | cons c t =>
    show (if c = '$' then t else c :: t) = c :: t
    rw [if_neg (h c (by simp))]

theorem removeCommas_nop (l : List Char) (h : ∀ c ∈ l, (c == ',') = false) :
    removeCommas l = l := by
  unfold removeCommas
  rw [List.filter_eq_self.mpr]
  intro a ha
  simp [h a ha]

theorem ofDigits_replicate_zero : ∀ j : ℕ, Nat.ofDigits 10 (List.replicate j 0) = 0
  | 0 => rfl
  | j + 1 => by
    simp [List.replicate_succ, Nat.ofDigits_cons, ofDigits_replicate_zero j]

theorem natOfChars_digitsRev (m : ℕ) :
    natOfChars ((Nat.digits 10 m).reverse.map digitChar) = m := by
  unfold natOfChars
  rw [List.map_map, List.map_reverse, List.reverse_reverse]
  have hmap : List.map (digitVal ∘ digitChar) (Nat.digits 10 m) = Nat.digits 10 m := by
    have h1 : List.map (digitVal ∘ digitChar) (Nat.digits 10 m)
        = List.map id (Nat.digits 10 m) :=
      List.map_congr_left
        (fun d hd => (digitChar_spec d (Nat.digits_lt_base (by norm_num) hd)).2)
    rw [h1, List.map_id]
  rw [hmap, Nat.ofDigits_digits]

theorem natOfChars_renderNat (m : ℕ) : natOfChars (renderNatChars m) = m := by
  unfold renderNatChars
  split
  · next h => subst h; decide
  · exact natOfChars_digitsRev m

theorem natOfChars_pad (j : ℕ) (l : List Char) :
    natOfChars (List.replicate j '0' ++ l) = natOfChars l := by
  unfold natOfChars
  rw [List.map_append, List.reverse_append]
  have hrep : (List.replicate j '0').map digitVal = List.replicate j 0 := by
    rw [List.map_replicate]
    rfl
  rw [hrep, List.reverse_replicate, Nat.ofDigits_append, ofDigits_replicate_zero]
  simp

theorem digits_len_le_of_lt {f k : ℕ} (h : f < 10 ^ k) : (Nat.digits 10 f).length ≤ k := by
  rcases eq_or_ne f 0 with rfl | hf
  · simp
  · rw [Nat.digits_len 10 f (by norm_num) hf]
    have := Nat.log_lt_of_lt_pow hf h
    omega

theorem splitSign_no_sign {c : Char} (t : List Char) (h1 : c ≠ '-') (h2 : c ≠ '+') :
    splitSign (c :: t) = (false, c :: t) := by
  show (if c = '-' then (true, t) else if c = '+' then (false, t) else (false, c :: t))
      = (false, c :: t)
  rw [if_neg h1, if_neg h2]

theorem splitSign_minus (t : List Char) : splitSign ('-' :: t) = (true, t) := rfl

/-! ## Powers of ten and denominators (towards claim C7) -/

theorem dvd_ten_pow_self : ∀ d : ℕ, (∃ K, d ∣ 10 ^ K) → d ∣ 10 ^ d := by
  intro d
  induction d using Nat.strong_induction_on with
  | _ d ih =>
    rintro ⟨K, hK⟩
    rcases eq_or_ne d 0 with rfl | hd0
    · exact absurd (Nat.eq_zero_of_zero_dvd hK) (by positivity)
    rcases eq_or_ne d 1 with rfl | hd1
    · exact one_dvd _
    obtain ⟨p, pp, pd⟩ := Nat.exists_prime_and_dvd hd1
    have hp10 : p ∣ 10 := pp.dvd_of_dvd_pow (pd.trans hK)
    obtain ⟨d2, rfl⟩ := pd
    have hd2K : d2 ∣ 10 ^ K := (Dvd.intro_left p rfl).trans hK
    have hd2ne : d2 ≠ 0 := by rintro rfl; simp at hd0
    have hplt : 1 < p := pp.one_lt
    have hlt : d2 < p * d2 := by
      have hpos := Nat.pos_of_ne_zero hd2ne
      nlinarith
    have ihd2 : d2 ∣ 10 ^ d2 := ih d2 hlt ⟨K, hd2K⟩
    have hmul : p * d2 ∣ 10 ^ (d2 + 1) := by
      rw [pow_succ']
      exact mul_dvd_mul hp10 ihd2
    exact hmul.trans (pow_dvd_pow 10 (by omega))

theorem den_mul_pow_eq_one {q : ℚ} {k : ℕ} (h : q.den ∣ 10 ^ k) :
    (q * 10 ^ k).den = 1 := by
  obtain ⟨c, hc⟩ := h
  have hden0 : (q.den : ℚ) ≠ 0 := Nat.cast_ne_zero.mpr q.den_nz
  have hz : q * (10 : ℚ) ^ k = ((q.num * c : ℤ) : ℚ) := by
    have h10 : ((10 : ℚ)) ^ k = ((q.den : ℚ)) * ((c : ℚ)) := by
      exact_mod_cast congrArg (fun n : ℕ => (n : ℚ)) hc
    conv_lhs => rw [← Rat.num_div_den q]
    rw [h10]
    push_cast
    field_simp
    ring
  rw [hz, Rat.den_intCast]

theorem kOf_den {q : ℚ} (h : ∃ K, q.den ∣ 10 ^ K) : (q * 10 ^ kOf q).den = 1 := by
  have hself : q.den ∣ 10 ^ q.den := dvd_ten_pow_self q.den h
  have hd : (q * 10 ^ q.den).den = 1 := den_mul_pow_eq_one hself
  have hmem : q.den ∈ List.range (q.den + 1) := by simp
  rcases hfind : (List.range (q.den + 1)).find? (fun k => (q * 10 ^ k).den == 1) with _ | k0
  · exfalso
    have hnone := List.find?_eq_none.mp hfind q.den hmem
    simp [hd] at hnone
  · have hk0 := List.find?_some hfind
    have hk02 : (q * 10 ^ k0).den = 1 := by simpa using hk0
    have hkof : kOf q = k0 := by
      unfold kOf
      rw [hfind]
      rfl
    rw [hkof]
    exact hk02

/-! ## Parsing a rendered decimal string (towards claim C7) -/

theorem goParseMantissa_int (neg : Bool) (m : ℕ) :
    goParseMantissa neg (renderNatChars m) = some (applySign neg (m : ℚ)) := by
  have hall := renderNatChars_digits m
  have htake : (renderNatChars m).takeWhile Char.isDigit = renderNatChars m :=
    takeWhile_all _ hall
  have hdrop : (renderNatChars m).dropWhile Char.isDigit = [] :=
    dropWhile_all _ hall
  simp only [goParseMantissa, htake, hdrop]
  rw [if_neg (renderNatChars_ne_nil m)]
  simp [parseExp, natOfChars_renderNat]

theorem goParseMantissa_frac (neg : Bool) (i f k : ℕ) (hf : f < 10 ^ k) :
    goParseMantissa neg
        (renderNatChars i ++ '.' ::
          (List.replicate (k - ((Nat.digits 10 f).reverse.map digitChar).length) '0' ++
            (Nat.digits 10 f).reverse.map digitChar)) =
      some (applySign neg ((i : ℚ) + (f : ℚ) / 10 ^ k)) := by
  set raw := (Nat.digits 10 f).reverse.map digitChar with hraw
  set fc := List.replicate (k - raw.length) '0' ++ raw with hfc
  have hrawdig : ∀ c ∈ raw, c.isDigit = true := by
    intro c hc
    rw [hraw, List.mem_map] at hc
    obtain ⟨d, hd, rfl⟩ := hc
    exact (digitChar_spec d (Nat.digits_lt_base (by norm_num) (List.mem_reverse.mp hd))).1
  have hfcdig : ∀ c ∈ fc, c.isDigit = true := by
    intro c hc
    rw [hfc] at hc
    rcases List.mem_append.mp hc with h | h
    · have hc0 : c = '0' := List.eq_of_mem_replicate h
      subst hc0
      decide
    · exact hrawdig c h
  have hlenraw : raw.length ≤ k := by
    rw [hraw]
    simpa using digits_len_le_of_lt hf
  have hlen : fc.length = k := by
    rw [hfc]
    simp only [List.length_append, List.length_replicate]
    omega
  have hvalfc : natOfChars fc = f := by
    rw [hfc, natOfChars_pad, hraw, natOfChars_digitsRev]
  have halli := renderNatChars_digits i
  have htake : (renderNatChars i ++ '.' :: fc).takeWhile Char.isDigit = renderNatChars i := by
    rw [takeWhile_append_all _ _ halli]
    have hdot : ('.' :: fc).takeWhile Char.isDigit = [] := by
      simp [List.takeWhile_cons]
    rw [hdot, List.append_nil]
  have hdrop : (renderNatChars i ++ '.' :: fc).dropWhile Char.isDigit = '.' :: fc := by
    rw [dropWhile_append_all _ _ halli]
    simp [List.dropWhile_cons]
  have htakefc : fc.takeWhile Char.isDigit = fc := takeWhile_all _ hfcdig
  have hdropfc : fc.dropWhile Char.isDigit = [] := dropWhile_all _ hfcdig
  simp only [goParseMantissa, htake, hdrop, htakefc, hdropfc]
  rw [if_neg (by rintro ⟨hi, _⟩; exact renderNatChars_ne_nil i hi)]
  simp [parseExp, natOfChars_renderNat, hvalfc, hlen]

theorem renderPosChars_digit_or_dot (q : ℚ) :
    ∀ c ∈ renderPosChars q, c.isDigit = true ∨ c = '.' := by
  intro c hc
  simp only [renderPosChars] at hc
  split at hc
  · exact Or.inl (renderNatChars_digits _ c hc)
  · rcases List.mem_append.mp hc with h | h
    · exact Or.inl (renderNatChars_digits _ c h)
    · rcases List.mem_cons.mp h with h2 | h2
      · exact Or.inr h2
      · rcases List.mem_append.mp h2 with h3 | h3
        · have hc0 : c = '0' := List.eq_of_mem_replicate h3
          subst hc0
          exact Or.inl (by decide)
        · rw [List.mem_map] at h3
          obtain ⟨d, hd, rfl⟩ := h3
          exact Or.inl
            (digitChar_spec d (Nat.digits_lt_base (by norm_num) (List.mem_reverse.mp hd))).1

theorem renderPosChars_head_digit (q : ℚ) :
    ∃ c t, renderPosChars q = c :: t ∧ c.isDigit = true := by
  simp only [renderPosChars]
  split
  · rcases hr : renderNatChars ((q * 10 ^ kOf q).num.toNat) with _ | ⟨c, t⟩
    · exact absurd hr (renderNatChars_ne_nil _)
    · exact ⟨c, t, rfl, renderNatChars_digits _ c (by rw [hr]; simp)⟩
  · rcases hr : renderNatChars ((q * 10 ^ kOf q).num.toNat / 10 ^ kOf q) with _ | ⟨c, t⟩
    · exact absurd hr (renderNatChars_ne_nil _)
    · exact ⟨c, _, rfl, renderNatChars_digits _ c (by rw [hr]; simp)⟩

theorem goParseMantissa_renderPos (q : ℚ) (hq : 0 ≤ q)
    (hden : (q * 10 ^ kOf q).den = 1) (neg : Bool) :
    goParseMantissa neg (renderPosChars q) = some (applySign neg q) := by
  have hnum0 : 0 ≤ (q * 10 ^ kOf q).num := Rat.num_nonneg.mpr (by positivity)
  have hm : (((q * 10 ^ kOf q).num.toNat : ℕ) : ℚ) = q * 10 ^ kOf q := by
    calc (((q * 10 ^ kOf q).num.toNat : ℕ) : ℚ)
        = (((q * 10 ^ kOf q).num.toNat : ℤ) : ℚ) := by push_cast; ring
      _ = (((q * 10 ^ kOf q).num : ℤ) : ℚ) := by rw [Int.toNat_of_nonneg hnum0]
      _ = q * 10 ^ kOf q := Rat.coe_int_num_of_den_eq_one hden
  simp only [renderPosChars]
  split
  · next hk =>
    rw [goParseMantissa_int]
    have hval : (((q * 10 ^ kOf q).num.toNat : ℕ) : ℚ) = q := by
      rw [hm, hk]
      norm_num
    rw [hval]
  · next hk =>
    set k0 := kOf q with hk0def
    set m := (q * 10 ^ k0).num.toNat with hmdef
    rw [goParseMantissa_frac neg _ _ k0 (Nat.mod_lt _ (by positivity))]
    have h10 : ((10 : ℚ)) ^ k0 ≠ 0 := by positivity
    have key : ((10 : ℚ)) ^ k0 * ((m / 10 ^ k0 : ℕ) : ℚ) + ((m % 10 ^ k0 : ℕ) : ℚ)
        = ((m : ℕ) : ℚ) := by
      exact_mod_cast congrArg (fun n : ℕ => (n : ℚ)) (Nat.div_add_mod m (10 ^ k0))
    have hq2 : q = ((m : ℕ) : ℚ) / 10 ^ k0 := by
      rw [hm]
      field_simp
    have hval : ((m / 10 ^ k0 : ℕ) : ℚ) + ((m % 10 ^ k0 : ℕ) : ℚ) / 10 ^ k0 = q := by
      rw [hq2]
      field_simp
      linarith [key]
    rw [hval]

/-! ## Every parse result is a decimal fraction (towards claim C7) -/

theorem rep_mul_zpow (z : ℤ) (n : ℕ) (e : ℤ) :
    ∃ (w : ℤ) (k : ℕ), ((z : ℚ) / 10 ^ n) * 10 ^ e = (w : ℚ) / 10 ^ k := by
  cases e with
  | ofNat t =>
    refine ⟨z * 10 ^ t, n, ?_⟩
    rw [show ((10 : ℚ)) ^ (Int.ofNat t) = ((10 : ℚ)) ^ t from zpow_natCast 10 t]
    push_cast
    ring
  | negSucc t =>
    refine ⟨z, n + (t + 1), ?_⟩
    rw [zpow_negSucc, ← div_eq_mul_inv, div_div, ← pow_add]

theorem rep_shape_frac (neg : Bool) (a f n : ℕ) (e : ℤ) :
    ∃ (z : ℤ) (k : ℕ),
      applySign neg (((a : ℚ) + (f : ℚ) / 10 ^ n) * 10 ^ e) = (z : ℚ) / 10 ^ k := by
  have h10 : ((10 : ℚ)) ^ n ≠ 0 := by positivity
  have base : ((a : ℚ) + (f : ℚ) / 10 ^ n) = (((a * 10 ^ n + f : ℕ) : ℤ) : ℚ) / 10 ^ n := by
    push_cast
    field_simp
  obtain ⟨w, k, hw⟩ := rep_mul_zpow ((a * 10 ^ n + f : ℕ) : ℤ) n e
  cases neg with
  | false =>
    refine ⟨w, k, ?_⟩
    simpa [applySign, base] using hw
  | true =>
    refine ⟨-w, k, ?_⟩
    have happ : applySign true ((((a : ℚ) + (f : ℚ) / 10 ^ n)) * 10 ^ e) =
        -((((a : ℚ) + (f : ℚ) / 10 ^ n)) * 10 ^ e) := rfl
    rw [happ, base, hw]
    push_cast
    ring

theorem goParseMantissa_rep {neg : Bool} {l : List Char} {q : ℚ}
    (h : goParseMantissa neg l = some q) :
    ∃ (z : ℤ) (k : ℕ), q = (z : ℚ) / 10 ^ k := by
  simp only [goParseMantissa] at h
  split at h
  · split at h
    · exact absurd h (by simp)
    · split at h
      · exact absurd h (by simp)
      · have hq := Option.some.inj h
        rw [← hq]
        exact rep_shape_frac neg _ _ _ _
  · split at h
    · exact absurd h (by simp)
    · split at h
      · exact absurd h (by simp)
      · have hq := Option.some.inj h
        rw [← hq]
        have hsimp : (natOfChars (l.takeWhile Char.isDigit) : ℚ) =
            ((natOfChars (l.takeWhile Char.isDigit) : ℚ) + ((0 : ℕ) : ℚ) / 10 ^ (0 : ℕ)) := by
          norm_num
        rw [hsimp]
        exact rep_shape_frac neg _ 0 0 _

theorem den_div_pow_dvd (z : ℤ) (k : ℕ) : (((z : ℚ) / 10 ^ k).den : ℤ) ∣ 10 ^ k := by
  have hdiv : (z : ℚ) / 10 ^ k = Rat.divInt z ((10 : ℤ) ^ k) := by
    rw [Rat.divInt_eq_div]
    push_cast
    ring
  rw [hdiv]
  exact Rat.den_dvd z ((10 : ℤ) ^ k)

theorem rep_den_dvd {q : ℚ} (h : ∃ (z : ℤ) (k : ℕ), q = (z : ℚ) / 10 ^ k) :
    ∃ K, q.den ∣ 10 ^ K := by
  obtain ⟨z, k, rfl⟩ := h
  refine ⟨k, ?_⟩
  have hd := den_div_pow_dvd z k
  exact_mod_cast hd

/-! ## Rendering and re-parsing a parsed amount (claim C7) -/

theorem renderMoney_chars (q : ℚ) :
    ∀ c ∈ (renderMoney q).toList,
      goIsSpace c = false ∧ (c == ',') = false ∧ c ≠ '$' := by
  intro c hc
  unfold renderMoney at hc
  split at hc
  · have hc2 : c ∈ '-' :: renderPosChars (-q) := hc
    rcases List.mem_cons.mp hc2 with rfl | hmem
    · exact ⟨by decide, by decide, by decide⟩
    · rcases renderPosChars_digit_or_dot _ c hmem with hd | rfl
      · obtain ⟨p1, p2, p3, _⟩ := isDigit_props hd
        exact ⟨p1, p2, p3⟩
      · exact ⟨by decide, by decide, by decide⟩
  · have hc2 : c ∈ renderPosChars q := hc
    rcases renderPosChars_digit_or_dot _ c hc2 with hd | rfl
    · obtain ⟨p1, p2, p3, _⟩ := isDigit_props hd
      exact ⟨p1, p2, p3⟩
    · exact ⟨by decide, by decide, by decide⟩

theorem goParseFloat_render {q : ℚ} (h : ∃ K, q.den ∣ 10 ^ K) :
    goParseFloatChars (renderMoney q).toList = some q := by
  by_cases hneg : q < 0
  · have hmq : ∃ K, (-q).den ∣ 10 ^ K := by
      obtain ⟨K, hK⟩ := h
      refine ⟨K, ?_⟩
      rwa [Rat.den_neg_eq_den]
    have hden : ((-q) * 10 ^ kOf (-q)).den = 1 := kOf_den hmq
    have hstep : (renderMoney q).toList = '-' :: renderPosChars (-q) := by
      unfold renderMoney
      rw [if_pos hneg]
      rfl
    rw [hstep]
    show goParseMantissa true (renderPosChars (-q)) = some q
    rw [goParseMantissa_renderPos (-q) (by linarith) hden true]
    simp [applySign]
  · push_neg at hneg
    have hden : (q * 10 ^ kOf q).den = 1 := kOf_den h
    have hstep : (renderMoney q).toList = renderPosChars q := by
      unfold renderMoney
      rw [if_neg (not_lt.mpr hneg)]
      rfl
    rw [hstep]
    obtain ⟨c, t, hct, hcd⟩ := renderPosChars_head_digit q
    obtain ⟨_, _, _, hm1, hp1, _⟩ := isDigit_props hcd
    have hsplit : splitSign (renderPosChars q) = (false, renderPosChars q) := by
      rw [hct]
      exact splitSign_no_sign t hm1 hp1
    show goParseMantissa (splitSign (renderPosChars q)).1
        (splitSign (renderPosChars q)).2 = some q
    rw [hsplit]
    show goParseMantissa false (renderPosChars q) = some q
    rw [goParseMantissa_renderPos q hneg hden false]
    rfl

theorem normalize_render {q : ℚ} (h : ∃ K, q.den ∣ 10 ^ K) :
    NormalizePrice (renderMoney q) = q := by
  have hchars := renderMoney_chars q
  simp only [NormalizePrice]
  rw [goTrimSpaceL_nop _ (fun c hc => (hchars c hc).1),
    goTrimLeadingDollar_nop _ (fun c hc => (hchars c hc).2.2),
    removeCommas_nop _ (fun c hc => (hchars c hc).2.1),
    goParseFloat_render h]

/-- C7: price normalization is idempotent: re-normalizing the decimal string
rendering of a normalized amount returns the same amount, for every input
string. -/
theorem c7_normalize_idempotent (s : String) :
    NormalizePrice (renderMoney (NormalizePrice s)) = NormalizePrice s := by
  rcases h : goParseFloatChars (removeCommas (goTrimLeadingDollar (goTrimSpaceL s.toList)))
    with _ | v
  · have h0 : NormalizePrice s = 0 := by
      simp only [NormalizePrice, h]
    rw [h0]
    exact normalize_render ⟨0, by decide⟩
  · have hv : NormalizePrice s = v := by
      simp only [NormalizePrice, h]
    rw [hv]
    refine normalize_render (rep_den_dvd ?_)
    exact goParseMantissa_rep h

end MyPrice
